import Mathlib

/-!
Shallow embedding of `src/network-monitor/monitor.py` (network device monitor).

Python strings are modelled as `List Char`; `datetime` timestamps are modelled
as integer seconds since the epoch (`Nat`), with `isoformat`/`fromisoformat`
modelled by the decimal rendering/parsing pair `fmtNat`/`parseNat`, which keeps
the two properties the code relies on: the pair is a bijection and the rendered
timestamp contains no comma.  The filesystem of per-device history files is the
`files` field of the `Tracker` structure: an association list from filename to
the list of appended lines.
-/

namespace NetMon

/-- Python `str`, modelled as a list of characters. -/
abbrev Str := List Char

/-- The decimal digit character for `d` (building block of `str(n)`). -/
def digitChar (d : Nat) : Char := Char.ofNat (48 + d)

/-- Fuelled decimal rendering of a natural number (least significant digit
last), the model of Python's rendering of the integer-seconds timestamp. -/
def fmtNatAux (fuel n : Nat) : Str :=
  match fuel with
  | 0 => []
  | fuel + 1 =>
    if n < 10 then [digitChar n]
    else fmtNatAux fuel (n / 10) ++ [digitChar (n % 10)]

/-- Decimal rendering of a natural number. -/
def fmtNat (n : Nat) : Str := fmtNatAux (n + 1) n

/-- Accumulator-style decimal parser over a character list. -/
def parseNatAux (acc : Nat) : Str → Option Nat
  | [] => some acc
  | c :: cs => if c.isDigit then parseNatAux (acc * 10 + (c.toNat - 48)) cs else none

/-- Decimal parsing of a nonempty digit string, the model of
`datetime.fromisoformat` on a rendered timestamp (`none` = raises). -/
def parseNat : Str → Option Nat
  | [] => none
  | c :: cs => parseNatAux 0 (c :: cs)

/-- Joining fields with a comma (the f-string `f"{a},{b},..."`). -/
def joinComma : List Str → Str
  | [] => []
  | [f] => f
  | f :: g :: fs => f ++ ',' :: joinComma (g :: fs)

/-- Splitting a line on commas (Python `line.split(',')`). -/
def splitComma : Str → List Str
  | [] => [[]]
  | c :: cs =>
    if c = ',' then [] :: splitComma cs
    else
      match splitComma cs with
      | [] => [[c]]
      | h :: t => (c :: h) :: t

/-- Dictionary lookup, the model of Python `d[k]` and `k in d`. -/
def alookup {α : Type} (k : Str) : List (Str × α) → Option α
  | [] => none
  | (k', v) :: rest => if k = k' then some v else alookup k rest

/-- Dictionary assignment `d[k] = v`: overwrite the binding in place, or append
a new key at the end (Python dicts preserve insertion order). -/
def aset {α : Type} (k : Str) (v : α) : List (Str × α) → List (Str × α)
  | [] => [(k, v)]
  | (k', v') :: rest => if k = k' then (k, v) :: rest else (k', v') :: aset k v rest

/-- One line of a per-device history file before rendering: timestamp, network
address, hardware address, new status, and seconds spent in the previous
status (`monitor.py` writes `f"{now.isoformat()},{ip},{mac},{status},{dur:.1f}"`). -/
structure HistEntry where
  ts : Nat
  ip : Str
  mac : Str
  status : Str
  dur : Int
deriving DecidableEq

/-- Rendering of the duration field (Python `f"{interval_seconds:.1f}"`,
specialised to the integer-seconds clock of the model). -/
def fmtDur (d : Int) : Str :=
  (if d < 0 then '-' :: fmtNat d.natAbs else fmtNat d.natAbs) ++ ['.', '0']

/-- The comma-delimited line appended for a history entry. -/
def serLine (e : HistEntry) : Str :=
  joinComma [fmtNat e.ts, e.ip, e.mac, e.status, fmtDur e.dur]

/-- Parsing of the last line in `DeviceTracker._load_device_states`:
`parts = last_line.split(',')`, require `len(parts) >= 4`, and parse the
timestamp (a `fromisoformat` failure raises and the file is skipped — `none`). -/
def parseLine (line : Str) : Option (Nat × Str × Str × Str) :=
  match splitComma line with
  | t :: i :: m :: s :: _ =>
    match parseNat t with
    | some ts => some (ts, i, m, s)
    | none => none
  | _ => none

/-- In-memory record per device in `DeviceTracker.device_states`:
`{'hostname': str, 'ip': str, 'status': str, 'last_change': datetime}`. -/
structure DevState where
  hostname : Str
  ip : Str
  status : Str
  lastChange : Nat
deriving DecidableEq

/-- The tracker's whole state: the in-memory device map plus the directory of
per-device history files (filename to list of appended entries). -/
structure Tracker where
  deviceStates : List (Str × DevState)
  files : List (Str × List HistEntry)
deriving DecidableEq

def sOnline : Str := "online".toList

def sOffline : Str := "offline".toList

/-- `DeviceTracker._get_filename`: keep alphanumerics, `-` and `_`, strip
leading `-`/`_`, and fall back to `unknown-device` when empty. -/
def get_filename (hostname : Str) : Str :=
  let safe := hostname.filter (fun c => c.isAlphanum || c == '-' || c == '_')
  let stripped := safe.dropWhile (fun c => c == '-' || c == '_')
  if stripped = [] then "unknown-device".toList else stripped

/-- Appending one line to a file opened with mode `'a'` (creates the file when
missing). -/
def fappend (fname : Str) (e : HistEntry) :
    List (Str × List HistEntry) → List (Str × List HistEntry)
  | [] => [(fname, [e])]
  | (g, es) :: rest =>
    if fname = g then (g, es ++ [e]) :: rest else (g, es) :: fappend fname e rest

/-- `DeviceTracker.add_or_update_device`: a known device only gets its IP
refreshed; a new device is stored with status `online` and one initial history
line with duration `0`. -/
def add_or_update_device (t : Tracker) (now : Nat) (mac ip hostname : Str) : Tracker :=
  match alookup mac t.deviceStates with
  | some st => { t with deviceStates := aset mac { st with ip := ip } t.deviceStates }
  | none =>
    { deviceStates := aset mac ⟨hostname, ip, sOnline, now⟩ t.deviceStates,
      files := fappend (get_filename hostname) ⟨now, ip, mac, sOnline, 0⟩ t.files }

/-- `DeviceTracker.update_device_status`: unknown devices are ignored; an
unchanged status is a no-op; otherwise the in-memory state is updated and one
history line is appended whose duration is `now - last_change`. -/
def update_device_status (t : Tracker) (now : Nat) (mac newStatus : Str) : Tracker :=
  match alookup mac t.deviceStates with
  | none => t
  | some device =>
    if device.status ≠ newStatus then
      { deviceStates :=
          aset mac { device with status := newStatus, lastChange := now } t.deviceStates,
        files := fappend (get_filename device.hostname)
          ⟨now, device.ip, mac, newStatus, (now : Int) - (device.lastChange : Int)⟩ t.files }
    else t

/-- `update_device_status` with an explicit write outcome: `writeOk = false`
models `open`/`write` raising. The source updates the in-memory state before
opening the file and has no try/except around the write, so on failure the new
in-memory state survives, the file is untouched, and the exception propagates.
Returns (tracker, number of write attempts, whether an exception escaped). -/
def update_device_status_fallible (t : Tracker) (now : Nat) (mac newStatus : Str)
    (writeOk : Bool) : Tracker × Nat × Bool :=
  match alookup mac t.deviceStates with
  | none => (t, 0, false)
  | some device =>
    if device.status ≠ newStatus then
      ({ deviceStates :=
           aset mac { device with status := newStatus, lastChange := now } t.deviceStates,
         files :=
           if writeOk then
             fappend (get_filename device.hostname)
               ⟨now, device.ip, mac, newStatus,
                (now : Int) - (device.lastChange : Int)⟩ t.files
           else t.files },
       1, !writeOk)
    else (t, 0, false)

/-- The text of a history file, line by line. -/
def fileLines (es : List HistEntry) : List Str := es.map serLine

/-- One iteration of `DeviceTracker._load_device_states`: read the last line of
a file and recover `(mac, state)` from it; the stored hostname is the filename. -/
def load_one (fname : Str) (es : List HistEntry) : Option (Str × DevState) :=
  match (fileLines es).getLast? with
  | none => none
  | some lastLine =>
    match parseLine lastLine with
    | none => none
    | some (ts, ip, mac, status) => some (mac, ⟨fname, ip, status, ts⟩)

/-- One step of the load fold: record what the file yields, if anything. -/
def loadStep (acc : List (Str × DevState)) (fe : Str × List HistEntry) :
    List (Str × DevState) :=
  match load_one fe.1 fe.2 with
  | none => acc
  | some (mac, st) => aset mac st acc

/-- `DeviceTracker._load_device_states`: fold over all files, skipping empty or
unparsable ones. -/
def load_device_states (files : List (Str × List HistEntry)) : List (Str × DevState) :=
  files.foldl loadStep []

/-- `MacVendorLookup` state: the vendor cache (keyed by the full MAC in the
source) and the per-base hostname collision counters. -/
structure MacVendorLookup where
  cache : List (Str × Str)
  hostname_counts : List (Str × Nat)
deriving DecidableEq

/-- The hard-coded fallback table `common_vendors` in `get_vendor`. -/
def common_vendors : List (Str × Str) :=
  [("74B6B6".toList, "Eero".toList),
   ("1C6499".toList, "UnknownIoT".toList),
   ("0050B6".toList, "UnknownDevice".toList),
   ("AC6784".toList, "UnknownDevice".toList),
   ("E4F042".toList, "UnknownDevice".toList)]

/-- `mac.replace(':', '').replace('-', '').upper()[:6]`. -/
def ouiOf (mac : Str) : Str :=
  ((mac.filter (fun c => !(c == ':') && !(c == '-'))).map Char.toUpper).take 6

/-- `MacVendorLookup.get_vendor`. `web` models the HTTP OUI lookup
(`some v` = HTTP 200 with company `v`; `none` = any failure or non-200, which
falls through to the `common_vendors` table). Returns the vendor, the updated
state, and whether an external lookup was attempted this call. -/
def get_vendor (lk : MacVendorLookup) (web : Str → Option Str) (mac : Str) :
    Str × MacVendorLookup × Bool :=
  match alookup mac lk.cache with
  | some v => (v, lk, false)
  | none =>
    let oui := ouiOf mac
    match web oui with
    | some vendor => (vendor, { lk with cache := aset mac vendor lk.cache }, true)
    | none =>
      let vendor := (alookup oui common_vendors).getD "Unknown".toList
      (vendor, { lk with cache := aset mac vendor lk.cache }, true)

/-- `mac.replace(':', '')[-4:].upper()`. -/
def last4Of (mac : Str) : Str :=
  let noColon := mac.filter (fun c => !(c == ':'))
  (noColon.drop (noColon.length - 4)).map Char.toUpper

/-- `vendor.replace(',', '').replace(' ', '').replace('.', '')`. -/
def cleanVendor (vendor : Str) : Str :=
  vendor.filter (fun c => !(c == ',') && !(c == ' ') && !(c == '.'))

/-- The duplicate-handling block of `generate_hostname` (lines 80-86): a fresh
base is issued verbatim with counter 1; a seen base increments its counter `n`
and is issued as `base-(n+1)`. -/
def assign_hostname (counts : List (Str × Nat)) (base : Str) : Str × List (Str × Nat) :=
  match alookup base counts with
  | some n => (base ++ '-' :: fmtNat (n + 1), aset base (n + 1) counts)
  | none => (base, aset base 1 counts)

/-- Iterated label assignment over a list of base names (one registration per
base, in call order). -/
def assign_fold : List (Str × Nat) → List Str → List Str × List (Str × Nat)
  | counts, [] => ([], counts)
  | counts, b :: bs =>
    let a := assign_hostname counts b
    let r := assign_fold a.2 bs
    (a.1 :: r.1, r.2)

/-- `dns_hostname.replace('.', '-').replace(' ', '-')`. -/
def cleanDns (d : Str) : Str := d.map (fun c => if c == '.' || c == ' ' then '-' else c)

/-- The vendor-derived branch of `generate_hostname`. -/
def gen_vendor_hostname (lk : MacVendorLookup) (web : Str → Option Str) (mac : Str) :
    Str × MacVendorLookup :=
  let r := get_vendor lk web mac
  let base := cleanVendor r.1 ++ '-' :: last4Of mac
  let a := assign_hostname r.2.1.hostname_counts base
  (a.1, { r.2.1 with hostname_counts := a.2 })

/-- `MacVendorLookup.generate_hostname`: a truthy DNS name distinct from the
bare IP short-circuits to its sanitized form without touching any counter;
otherwise the vendor-derived branch runs. -/
def generate_hostname (lk : MacVendorLookup) (web : Str → Option Str) (mac ip : Str)
    (dns : Option Str) : Str × MacVendorLookup :=
  match dns with
  | some d =>
    if d ≠ [] ∧ d ≠ ip then (cleanDns d, lk) else gen_vendor_hostname lk web mac
  | none => gen_vendor_hostname lk web mac

/-- Outcome of the `subprocess.run` ping probe: the process exited with a
return code, or the call raised (timeout, missing tool, permission error, any
other exception). -/
inductive ProbeResult where
  | exited (returncode : Int)
  | error
deriving DecidableEq

/-- `DevicePinger.is_online`: `result.returncode == 0` inside a bare
`try/except` that turns every exception into `False`. -/
def is_online : ProbeResult → Bool
  | .exited rc => rc == 0
  | .error => false

/-- Documented contract of the external `ping` tool (an external collaborator,
not repository code): exit status 0 iff at least one of its echo attempts got a
reply within the timeout, 1 otherwise. -/
def pingExitCode (attempts : List Bool) : Int := if attempts.any id then 0 else 1

/-- Token of the regex fragment used by the override patterns: a literal
character, `.`, or `.*`. -/
inductive RTok where
  | lit (c : Char)
  | dot
  | dotStar
deriving DecidableEq

/-- `re.match` for the token fragment: the pattern must match a prefix of the
string starting at position 0; `.*` consumes any (possibly empty) run. -/
def reMatchFrom : List RTok → Str → Bool
  | [], _ => true
  | .lit c :: ps, s =>
    match s with
    | [] => false
    | x :: xs => c == x && reMatchFrom ps xs
  | .dot :: ps, s =>
    match s with
    | [] => false
    | _ :: xs => reMatchFrom ps xs
  | .dotStar :: ps, s => s.tails.any (fun suf => reMatchFrom ps suf)

/-- Modelled from the spec: `NetworkMonitor._get_device_config` is exercised by
`test_monitor.py` but absent from `src/network-monitor/monitor.py`. Per the
spec, the effective per-device configuration is the patch of the first pattern
in declaration order whose pattern matches the device's label, with no merging
of later matching patches; an unmatched label gets the empty patch. -/
def get_device_config {α : Type} (overrides : List (List RTok × α)) (empty : α)
    (label : Str) : α :=
  match overrides.find? (fun pr => reMatchFrom pr.1 label) with
  | some pr => pr.2
  | none => empty

/-- The pattern `"Espressif.*"`. -/
def reEspressif : List RTok := "Espressif".toList.map RTok.lit ++ [RTok.dotStar]

/-- The pattern `".*"`. -/
def reAnything : List RTok := [RTok.dotStar]

/-- Adjacent-entry duration law of a history stream: every entry's duration is
its timestamp minus the previous entry's timestamp. -/
def durChain : List HistEntry → Prop
  | [] => True
  | [_] => True
  | a :: b :: rest => (b.dur = (b.ts : Int) - (a.ts : Int)) ∧ durChain (b :: rest)

/-- Invariant tying a device's in-memory state to its history file after it was
registered on top of a tracker `t0` that knew neither the MAC nor the filename:
the device map and file map are `t0`'s plus exactly our entry, the last history
entry mirrors the in-memory state, and the duration law holds. -/
def DevInv (t0 : Tracker) (mac ip hostname : Str) (t : Tracker) (st : DevState)
    (es : List HistEntry) : Prop :=
  t.deviceStates = t0.deviceStates ++ [(mac, st)] ∧
  t.files = t0.files ++ [(get_filename hostname, es)] ∧
  st.hostname = hostname ∧
  st.ip = ip ∧
  (es.getLast?).map (fun e => (e.ts, e.ip, e.mac, e.status)) =
    some (st.lastChange, ip, mac, st.status) ∧
  durChain es ∧
  (es.head?).map HistEntry.dur = some 0

/-- Register a device on `t0` at time `r`, then run a sequence of
`update_device_status` calls for it (each call is a time and a status). -/
def runDevice (t0 : Tracker) (r : Nat) (mac ip hostname : Str)
    (calls : List (Nat × Str)) : Tracker :=
  calls.foldl (fun t c => update_device_status t c.1 mac c.2)
    (add_or_update_device t0 r mac ip hostname)

/-- Total number of history entries across all files. -/
def totalEntries (t : Tracker) : Nat := (t.files.map (fun fe => fe.2.length)).sum

/-! Concrete values used by the witnesses. -/

def exMac : Str := "aa:bb:cc:11:22:33".toList

def exMacB : Str := "AA:BB:CC:11:22:33".toList

def exMacD : Str := "aa:bb:cc:11:22:34".toList

def exIp : Str := "10.0.0.5".toList

def exHost : Str := "Foo".toList

def exT1 : Tracker := add_or_update_device ⟨[], []⟩ 100 exMac exIp exHost

def webEspressif : Str → Option Str := fun _ => some "Espressif Inc.".toList

def exCalls : List (Nat × Str) := [(220, sOffline), (340, sOnline)]

def exEs : List HistEntry :=
  [⟨100, exIp, exMac, sOnline, 0⟩, ⟨220, exIp, exMac, sOffline, 120⟩,
   ⟨340, exIp, exMac, sOnline, 120⟩]

end NetMon

namespace NetMon

theorem digitChar_isDigit (d : Nat) (h : d < 10) : (digitChar d).isDigit = true := by
  interval_cases d <;> decide

theorem digitChar_toNat (d : Nat) (h : d < 10) : (digitChar d).toNat - 48 = d := by
  interval_cases d <;> decide

theorem digitChar_ne_comma (d : Nat) (h : d < 10) : digitChar d ≠ ',' := by
  interval_cases d <;> decide

theorem fmtNatAux_ne_nil (fuel n : Nat) (h : 0 < fuel) : fmtNatAux fuel n ≠ [] := by
  match fuel with
  | fuel + 1 =>
    simp only [fmtNatAux]
    split
    · simp
    · simp

theorem fmtNat_ne_nil (n : Nat) : fmtNat n ≠ [] :=
  fmtNatAux_ne_nil (n + 1) n (Nat.succ_pos n)

theorem fmtNatAux_digits (fuel : Nat) : ∀ n, n < fuel →
    ∀ c ∈ fmtNatAux fuel n, c.isDigit = true := by
  induction fuel with
  | zero => intro n h; omega
  | succ fuel ih =>
    intro n _ c hc
    simp only [fmtNatAux] at hc
    split at hc
    · simp at hc
      subst hc
      exact digitChar_isDigit n (by omega)
    · rename_i hn
      rcases List.mem_append.mp hc with h1 | h1
      · exact ih (n / 10) (by omega) c h1
      · simp at h1
        subst h1
        exact digitChar_isDigit (n % 10) (by omega)

theorem fmtNat_digits (n : Nat) : ∀ c ∈ fmtNat n, c.isDigit = true :=
  fmtNatAux_digits (n + 1) n (Nat.lt_succ_self n)

theorem fmtNat_no_comma (n : Nat) : ',' ∉ fmtNat n := by
  intro h
  have := fmtNat_digits n ',' h
  simp at this

theorem parseNatAux_fmtNatAux (fuel : Nat) : ∀ n acc rest, n < fuel →
    parseNatAux acc (fmtNatAux fuel n ++ rest) =
      parseNatAux (acc * 10 ^ (fmtNatAux fuel n).length + n) rest := by
  induction fuel with
  | zero => intro n acc rest h; omega
  | succ fuel ih =>
    intro n acc rest h
    simp only [fmtNatAux]
    split
    · rename_i hn
      simp only [List.cons_append, List.nil_append, parseNatAux,
        digitChar_isDigit n hn, if_true, digitChar_toNat n hn, List.length_singleton]
      norm_num
    · rename_i hn
      have hdiv : n / 10 < fuel := by
        have h1 : n / 10 < n := Nat.div_lt_self (by omega) (by norm_num)
        omega
      rw [List.append_assoc, ih (n / 10) acc ([digitChar (n % 10)] ++ rest) hdiv]
      have hmod : n % 10 < 10 := Nat.mod_lt n (by norm_num)
      simp only [List.cons_append, List.nil_append, parseNatAux,
        digitChar_isDigit (n % 10) hmod, if_true, digitChar_toNat (n % 10) hmod,
        List.length_append, List.length_singleton]
      congr 1
      have hpow : 10 ^ ((fmtNatAux fuel (n / 10)).length + 1) =
          10 ^ (fmtNatAux fuel (n / 10)).length * 10 := pow_succ 10 _
      have hdm : n / 10 * 10 + n % 10 = n := by omega
      calc (acc * 10 ^ (fmtNatAux fuel (n / 10)).length + n / 10) * 10 + n % 10
          = acc * (10 ^ (fmtNatAux fuel (n / 10)).length * 10) + (n / 10 * 10 + n % 10) := by
            ring
        _ = acc * 10 ^ ((fmtNatAux fuel (n / 10)).length + 1) + n := by rw [hpow, hdm]

theorem parseNat_fmtNat (n : Nat) : parseNat (fmtNat n) = some n := by
  obtain ⟨c, cs, hc⟩ := List.exists_cons_of_ne_nil (fmtNat_ne_nil n)
  have h1 : parseNatAux 0 (fmtNat n ++ []) =
      parseNatAux (0 * 10 ^ (fmtNat n).length + n) [] :=
    parseNatAux_fmtNatAux (n + 1) n 0 [] (Nat.lt_succ_self n)
  simp only [List.append_nil, Nat.zero_mul, Nat.zero_add, parseNatAux] at h1
  rw [hc] at h1 ⊢
  exact h1

theorem fmtNat_injective : Function.Injective fmtNat := by
  intro a b h
  have ha := parseNat_fmtNat a
  rw [h, parseNat_fmtNat b] at ha
  exact (Option.some_inj.mp ha).symm

theorem splitComma_ne_nil (s : Str) : splitComma s ≠ [] := by
  match s with
  | [] => simp [splitComma]
  | c :: cs =>
    simp only [splitComma]
    split
    · simp
    · split <;> simp

theorem splitComma_no_comma (s : Str) (h : ',' ∉ s) : splitComma s = [s] := by
  induction s with
  | nil => rfl
  | cons c cs ih =>
    have hc : c ≠ ',' := fun hh => h (hh ▸ List.mem_cons_self c cs)
    have hcs : ',' ∉ cs := fun hh => h (List.mem_cons_of_mem c hh)
    simp only [splitComma, if_neg hc, ih hcs]

theorem splitComma_append_comma (f r : Str) (h : ',' ∉ f) :
    splitComma (f ++ ',' :: r) = f :: splitComma r := by
  induction f with
  | nil => simp [splitComma]
  | cons c cs ih =>
    have hc : c ≠ ',' := fun hh => h (hh ▸ List.mem_cons_self c cs)
    have hcs : ',' ∉ cs := fun hh => h (List.mem_cons_of_mem c hh)
    simp only [List.cons_append, splitComma, if_neg hc]
    rw [show cs.append (',' :: r) = cs ++ ',' :: r from rfl, ih hcs]

theorem splitComma_joinComma : ∀ fs : List Str, fs ≠ [] →
    (∀ f ∈ fs, ',' ∉ f) → splitComma (joinComma fs) = fs := by
  intro fs
  induction fs with
  | nil => intro h; exact absurd rfl h
  | cons f rest ih =>
    intro _ hc
    match rest with
    | [] =>
      simp only [joinComma]
      exact splitComma_no_comma f (hc f (List.mem_cons_self f []))
    | g :: fs' =>
      simp only [joinComma]
      rw [splitComma_append_comma f (joinComma (g :: fs'))
        (hc f (List.mem_cons_self f _))]
      congr 1
      exact ih (by simp) (fun x hx => hc x (List.mem_cons_of_mem f hx))

theorem alookup_aset_self {α : Type} (k : Str) (v : α) (l : List (Str × α)) :
    alookup k (aset k v l) = some v := by
  induction l with
  | nil => simp [aset, alookup]
  | cons p rest ih =>
    obtain ⟨k', v'⟩ := p
    simp only [aset]
    split
    · simp [alookup]
    · rename_i hne
      simp only [alookup, if_neg hne]
      exact ih

theorem alookup_aset_ne {α : Type} (k k' : Str) (hne : k ≠ k') (v : α)
    (l : List (Str × α)) : alookup k (aset k' v l) = alookup k l := by
  induction l with
  | nil => simp [aset, alookup, hne]
  | cons p rest ih =>
    obtain ⟨k₁, v₁⟩ := p
    simp only [aset]
    split
    · rename_i he
      subst he
      simp [alookup, hne]
    · simp only [alookup]
      split
      · rfl
      · exact ih

theorem alookup_cons_ne {α : Type} (k k₁ : Str) (hne : k ≠ k₁) (v₁ : α)
    (l : List (Str × α)) : alookup k ((k₁, v₁) :: l) = alookup k l := by
  simp [alookup, hne]

theorem alookup_none_head {α : Type} (k k₁ : Str) (v₁ : α) (l : List (Str × α))
    (h : alookup k ((k₁, v₁) :: l) = none) : k ≠ k₁ ∧ alookup k l = none := by
  by_cases he : k = k₁
  · subst he
    simp [alookup] at h
  · exact ⟨he, by simpa [alookup, he] using h⟩

theorem alookup_append_left {α : Type} (k : Str) (l m : List (Str × α))
    (h : alookup k l = none) : alookup k (l ++ m) = alookup k m := by
  induction l with
  | nil => simp
  | cons p rest ih =>
    obtain ⟨k₁, v₁⟩ := p
    obtain ⟨hne, hrest⟩ := alookup_none_head k k₁ v₁ rest h
    simp only [List.cons_append, alookup, if_neg hne]
    exact ih hrest

theorem alookup_snoc {α : Type} (k : Str) (v : α) (l : List (Str × α))
    (h : alookup k l = none) : alookup k (l ++ [(k, v)]) = some v := by
  rw [alookup_append_left k l [(k, v)] h]
  simp [alookup]

theorem aset_fresh {α : Type} (k : Str) (v : α) (l : List (Str × α))
    (h : alookup k l = none) : aset k v l = l ++ [(k, v)] := by
  induction l with
  | nil => simp [aset]
  | cons p rest ih =>
    obtain ⟨k₁, v₁⟩ := p
    obtain ⟨hne, hrest⟩ := alookup_none_head k k₁ v₁ rest h
    simp only [aset, if_neg hne, List.cons_append]
    rw [ih hrest]

theorem aset_snoc {α : Type} (k : Str) (v w : α) (l : List (Str × α))
    (h : alookup k l = none) : aset k v (l ++ [(k, w)]) = l ++ [(k, v)] := by
  induction l with
  | nil => simp [aset]
  | cons p rest ih =>
    obtain ⟨k₁, v₁⟩ := p
    obtain ⟨hne, hrest⟩ := alookup_none_head k k₁ v₁ rest h
    simp only [List.cons_append, aset, if_neg hne]
    rw [show rest.append [(k, w)] = rest ++ [(k, w)] from rfl, ih hrest]

theorem fappend_fresh (k : Str) (e : HistEntry) (fs : List (Str × List HistEntry))
    (h : alookup k fs = none) : fappend k e fs = fs ++ [(k, [e])] := by
  induction fs with
  | nil => simp [fappend]
  | cons p rest ih =>
    obtain ⟨k₁, v₁⟩ := p
    obtain ⟨hne, hrest⟩ := alookup_none_head k k₁ v₁ rest h
    simp only [fappend, if_neg hne, List.cons_append]
    rw [ih hrest]

theorem fappend_snoc (k : Str) (e : HistEntry) (w : List HistEntry)
    (fs : List (Str × List HistEntry)) (h : alookup k fs = none) :
    fappend k e (fs ++ [(k, w)]) = fs ++ [(k, w ++ [e])] := by
  induction fs with
  | nil => simp [fappend]
  | cons p rest ih =>
    obtain ⟨k₁, v₁⟩ := p
    obtain ⟨hne, hrest⟩ := alookup_none_head k k₁ v₁ rest h
    simp only [List.cons_append, fappend, if_neg hne]
    rw [show rest.append [(k, w)] = rest ++ [(k, w)] from rfl, ih hrest]

theorem getLast?_map {α β : Type} (f : α → β) : ∀ l : List α,
    (l.map f).getLast? = (l.getLast?).map f := by
  intro l
  induction l with
  | nil => rfl
  | cons a rest ih =>
    match rest with
    | [] => rfl
    | b :: rest' =>
      simp only [List.map_cons] at ih ⊢
      rw [List.getLast?_cons_cons, List.getLast?_cons_cons, ih]

theorem fmtDur_no_comma (d : Int) : ',' ∉ fmtDur d := by
  intro h
  unfold fmtDur at h
  rcases List.mem_append.mp h with h1 | h1
  · split at h1
    · rcases List.mem_cons.mp h1 with h2 | h2
      · exact absurd h2 (by decide)
      · exact fmtNat_no_comma _ h2
    · exact fmtNat_no_comma _ h1
  · simp at h1

theorem parseLine_serLine (e : HistEntry) (h1 : ',' ∉ e.ip) (h2 : ',' ∉ e.mac)
    (h3 : ',' ∉ e.status) : parseLine (serLine e) = some (e.ts, e.ip, e.mac, e.status) := by
  unfold parseLine serLine
  rw [splitComma_joinComma [fmtNat e.ts, e.ip, e.mac, e.status, fmtDur e.dur]
    (by simp)
    (by
      intro f hf
      simp only [List.mem_cons, List.not_mem_nil, or_false] at hf
      rcases hf with rfl | rfl | rfl | rfl | rfl
      · exact fmtNat_no_comma e.ts
      · exact h1
      · exact h2
      · exact h3
      · exact fmtDur_no_comma e.dur)]
  simp [parseNat_fmtNat e.ts]

theorem durChain_snoc : ∀ (es : List HistEntry) (a e' : HistEntry), durChain es →
    es.getLast? = some a → e'.dur = (e'.ts : Int) - (a.ts : Int) →
    durChain (es ++ [e']) := by
  intro es
  induction es with
  | nil => intro a e' _ h; simp at h
  | cons x rest ih =>
    intro a e' hchain hlast hdur
    match rest with
    | [] =>
      have hx : x = a := by simpa using hlast
      simp only [List.singleton_append, durChain]
      exact ⟨by rw [hdur, hx], trivial⟩
    | y :: rest' =>
      rw [List.getLast?_cons_cons] at hlast
      obtain ⟨h1, h2⟩ : (y.dur = (y.ts : Int) - (x.ts : Int)) ∧ durChain (y :: rest') :=
        hchain
      exact ⟨h1, ih a e' h2 hlast hdur⟩

theorem durChain_tail_nonneg : ∀ es : List HistEntry, durChain es →
    List.Chain' (fun a b => a ≤ b) (es.map HistEntry.ts) →
    ∀ e ∈ es.tail, 0 ≤ e.dur := by
  intro es
  induction es with
  | nil => intro _ _ e he; simp at he
  | cons x rest ih =>
    cases rest with
    | nil => intro _ _ e he; simp at he
    | cons y rest' =>
      intro hchain hts e he
      obtain ⟨h1, h2⟩ : (y.dur = (y.ts : Int) - (x.ts : Int)) ∧ durChain (y :: rest') :=
        hchain
      simp only [List.map_cons, List.chain'_cons] at hts
      simp only [List.tail_cons, List.mem_cons] at he
      rcases he with he | he
      · rw [he, h1]
        have hle : (x.ts : Int) ≤ (y.ts : Int) := Int.ofNat_le.mpr hts.1
        omega
      · exact ih h2 (by simpa using hts.2) e (by simpa using he)

theorem durChain_sum : ∀ (rest : List HistEntry) (a : HistEntry),
    durChain (a :: rest) → ∀ b, (a :: rest).getLast? = some b →
    ((a :: rest).map HistEntry.dur).sum = a.dur + ((b.ts : Int) - (a.ts : Int)) := by
  intro rest
  induction rest with
  | nil =>
    intro a _ b hb
    have hab : a = b := by simpa using hb
    subst hab
    simp
  | cons c rest' ih =>
    intro a hchain b hb
    obtain ⟨h1, h2⟩ : (c.dur = (c.ts : Int) - (a.ts : Int)) ∧ durChain (c :: rest') :=
      hchain
    rw [List.getLast?_cons_cons] at hb
    have hsum := ih c h2 b hb
    simp only [List.map_cons, List.sum_cons] at hsum ⊢
    omega

theorem chain'_drop_snd {R : Nat → Nat → Prop} (hR : Transitive R) (a b : Nat)
    (l : List Nat) (h : List.Chain' R (a :: b :: l)) : List.Chain' R (a :: l) := by
  rw [List.chain'_cons] at h
  match l with
  | [] => simp
  | c :: l' =>
    rw [List.chain'_cons] at h ⊢
    exact ⟨hR h.1 h.2.1, h.2.2⟩

theorem DevInv_register (t0 : Tracker) (r : Nat) (mac ip hostname : Str)
    (hmac : alookup mac t0.deviceStates = none)
    (hF : alookup (get_filename hostname) t0.files = none) :
    DevInv t0 mac ip hostname (add_or_update_device t0 r mac ip hostname)
      ⟨hostname, ip, sOnline, r⟩ [⟨r, ip, mac, sOnline, 0⟩] := by
  unfold DevInv add_or_update_device
  simp only [hmac]
  rw [aset_fresh mac _ t0.deviceStates hmac, fappend_fresh _ _ t0.files hF]
  simp [durChain]

theorem DevInv_update (t0 : Tracker) (mac ip hostname : Str) (t : Tracker)
    (st : DevState) (es : List HistEntry) (now : Nat) (s : Str)
    (hmac : alookup mac t0.deviceStates = none)
    (hF : alookup (get_filename hostname) t0.files = none)
    (hinv : DevInv t0 mac ip hostname t st es) :
    (s = st.status → update_device_status t now mac s = t) ∧
    (s ≠ st.status →
      DevInv t0 mac ip hostname (update_device_status t now mac s)
        { st with status := s, lastChange := now }
        (es ++ [⟨now, ip, mac, s, (now : Int) - (st.lastChange : Int)⟩])) := by
  obtain ⟨hds, hfs, hhost, hip, hlast, hchain, hhead⟩ := hinv
  have hfind : alookup mac t.deviceStates = some st := by
    rw [hds]
    exact alookup_snoc mac st t0.deviceStates hmac
  constructor
  · intro hs
    unfold update_device_status
    simp only [hfind]
    rw [if_neg (by simp [hs])]
  · intro hs
    obtain ⟨eL, heL, heq⟩ := Option.map_eq_some'.mp hlast
    obtain ⟨hts, hip2, hmac2, hstat⟩ :
        eL.ts = st.lastChange ∧ eL.ip = ip ∧ eL.mac = mac ∧ eL.status = st.status := by
      have h1 := congrArg Prod.fst heq
      have h2 := congrArg (fun p => p.2.1) heq
      have h3 := congrArg (fun p => p.2.2.1) heq
      have h4 := congrArg (fun p => p.2.2.2) heq
      exact ⟨h1, h2, h3, h4⟩
    have hesne : es ≠ [] := by
      intro hnil
      rw [hnil] at heL
      simp at heL
    unfold update_device_status
    simp only [hfind]
    rw [if_pos (Ne.symm hs)]
    unfold DevInv
    refine ⟨?_, ?_, hhost, hip, ?_, ?_, ?_⟩
    · simp only [hds]
      exact aset_snoc mac _ st t0.deviceStates hmac
    · simp only [hfs, hhost, hip]
      exact fappend_snoc _ _ es t0.files hF
    · rw [List.getLast?_concat]
      rfl
    · exact durChain_snoc es eL _ hchain heL (by simp [hts])
    · obtain ⟨x, es', hx⟩ := List.exists_cons_of_ne_nil hesne
      rw [hx] at hhead ⊢
      simpa using hhead

theorem DevInv_fold (t0 : Tracker) (mac ip hostname : Str)
    (hmac : alookup mac t0.deviceStates = none)
    (hF : alookup (get_filename hostname) t0.files = none) :
    ∀ (calls : List (Nat × Str)) (t : Tracker) (st : DevState) (es : List HistEntry),
      DevInv t0 mac ip hostname t st es →
      ∃ st' es',
        DevInv t0 mac ip hostname
          (calls.foldl (fun tt c => update_device_status tt c.1 mac c.2) t) st' es' ∧
        (∃ suff, es' = es ++ suff) ∧
        (st'.status = st.status ∨ ∃ c ∈ calls, st'.status = c.2) ∧
        (∀ R : Nat → Nat → Prop, Transitive R →
          List.Chain' R (es.map HistEntry.ts) →
          List.Chain' R (st.lastChange :: calls.map Prod.fst) →
          List.Chain' R (es'.map HistEntry.ts)) := by
  intro calls
  induction calls with
  | nil =>
    intro t st es hinv
    exact ⟨st, es, hinv, ⟨[], by simp⟩, Or.inl rfl, fun R _ hes _ => hes⟩
  | cons c rest ih =>
    intro t st es hinv
    simp only [List.foldl_cons]
    by_cases hs : c.2 = st.status
    · rw [(DevInv_update t0 mac ip hostname t st es c.1 c.2 hmac hF hinv).1 hs]
      obtain ⟨st', es', h1, h2, h3, h4⟩ := ih t st es hinv
      refine ⟨st', es', h1, h2, ?_, ?_⟩
      · rcases h3 with h | ⟨cc, hcc, hcs⟩
        · exact Or.inl h
        · exact Or.inr ⟨cc, List.mem_cons_of_mem c hcc, hcs⟩
      · intro R hR hes hchain
        simp only [List.map_cons] at hchain
        exact h4 R hR hes (chain'_drop_snd hR st.lastChange c.1 (rest.map Prod.fst) hchain)
    · have hinv2 := hinv
      obtain ⟨-, -, -, -, hlast, -, -⟩ : _ ∧ _ ∧ _ ∧ _ ∧ _ ∧ _ ∧ _ := hinv2
      have hup := (DevInv_update t0 mac ip hostname t st es c.1 c.2 hmac hF hinv).2 hs
      obtain ⟨st', es', h1, ⟨suff, hsuff⟩, h3, h4⟩ := ih _ _ _ hup
      refine ⟨st', es',
        h1,
        ⟨⟨c.1, ip, mac, c.2, ((c.1 : Int) - (st.lastChange : Int))⟩ :: suff,
          by rw [hsuff]; simp⟩, ?_, ?_⟩
      · rcases h3 with h | ⟨cc, hcc, hcs⟩
        · exact Or.inr ⟨c, List.mem_cons_self c rest, h⟩
        · exact Or.inr ⟨cc, List.mem_cons_of_mem c hcc, hcs⟩
      · intro R hR hes hchain
        simp only [List.map_cons] at hchain
        apply h4 R hR
        · rw [List.map_append, List.chain'_append]
          refine ⟨hes, by simp, ?_⟩
          intro x hx y hy
          obtain ⟨eL, heL, heq⟩ := Option.map_eq_some'.mp hlast
          have hLts : eL.ts = st.lastChange := congrArg Prod.fst heq
          rw [getLast?_map HistEntry.ts es, heL] at hx
          have hxe : eL.ts = x := by simpa using hx
          have hye : c.1 = y := by simpa using hy
          rw [← hxe, ← hye, hLts]
          exact (List.chain'_cons.mp hchain).1
        · exact (List.chain'_cons.mp hchain).2

theorem load_snoc (fs : List (Str × List HistEntry)) (F : Str) (es : List HistEntry) :
    load_device_states (fs ++ [(F, es)]) = loadStep (fs.foldl loadStep []) (F, es) := by
  unfold load_device_states
  rw [List.foldl_append]
  rfl

theorem load_one_some (F : Str) (es : List HistEntry) (eL : HistEntry)
    (hL : es.getLast? = some eL) (h1 : ',' ∉ eL.ip) (h2 : ',' ∉ eL.mac)
    (h3 : ',' ∉ eL.status) :
    load_one F es = some (eL.mac, ⟨F, eL.ip, eL.status, eL.ts⟩) := by
  unfold load_one fileLines
  rw [getLast?_map serLine es, hL]
  simp [parseLine_serLine eL h1 h2 h3]

/-- C1: a `setStatus` call whose status equals the device's current status is a
no-op on the whole tracker state, and any sequence of such calls leaves the
tracker (and hence the number of persisted history entries) unchanged. -/
theorem setStatus_same_status_noop (t : Tracker) (mac : Str) (st : DevState)
    (h : alookup mac t.deviceStates = some st) :
    (∀ now, update_device_status t now mac st.status = t) ∧
    (∀ times : List Nat,
      times.foldl (fun t' now => update_device_status t' now mac st.status) t = t) ∧
    (∀ times : List Nat,
      totalEntries
        (times.foldl (fun t' now => update_device_status t' now mac st.status) t) =
        totalEntries t) := by
  have h1 : ∀ now, update_device_status t now mac st.status = t := by
    intro now
    unfold update_device_status
    simp only [h]
    rw [if_neg (by simp)]
  have h2 : ∀ times : List Nat,
      times.foldl (fun t' now => update_device_status t' now mac st.status) t = t := by
    intro times
    induction times with
    | nil => rfl
    | cons n ns ih =>
      simp only [List.foldl_cons]
      rw [h1 n]
      exact ih
  exact ⟨h1, h2, fun times => by rw [h2 times]⟩

theorem setStatus_same_status_noop_witness :
    update_device_status exT1 230 exMac sOnline = exT1 ∧
    [230, 231, 232].foldl (fun t' now => update_device_status t' now exMac sOnline) exT1 =
      exT1 := by
  have h := setStatus_same_status_noop exT1 exMac ⟨exHost, exIp, sOnline, 100⟩ (by decide)
  exact ⟨h.1 230, h.2.1 [230, 231, 232]⟩

/-- C9: `setStatus` on a hardware address the tracker does not know returns
without raising, changes nothing in the device map, and appends nothing to any
history file. -/
theorem setStatus_unknown_mac_ignored (t : Tracker) (now : Nat) (mac s : Str)
    (h : alookup mac t.deviceStates = none) :
    update_device_status t now mac s = t ∧
    (∀ w, update_device_status_fallible t now mac s w = (t, 0, false)) := by
  constructor
  · unfold update_device_status
    simp only [h]
  · intro w
    unfold update_device_status_fallible
    simp only [h]

theorem setStatus_unknown_mac_ignored_witness :
    update_device_status exT1 230 "zz".toList sOffline = exT1 ∧
    update_device_status_fallible exT1 230 "zz".toList sOffline false =
      (exT1, 0, false) := by
  have h := setStatus_unknown_mac_ignored exT1 230 "zz".toList sOffline (by decide)
  exact ⟨h.1, h.2 false⟩

/-- C6: `is_online` returns true iff the probe process exits with status 0
(the ping tool's contract: at least one attempt succeeded within the timeout),
and every probe error yields `false` rather than an exception. -/
theorem is_online_success_iff (attempts : List Bool) (rc : Int) (h : rc ≠ 0) :
    is_online (.exited (pingExitCode attempts)) = attempts.any id ∧
    is_online (.exited rc) = false ∧
    is_online .error = false := by
  refine ⟨?_, ?_, rfl⟩
  · unfold pingExitCode is_online
    cases ha : attempts.any id <;> simp [ha]
  · unfold is_online
    exact beq_eq_false_iff_ne.mpr h

theorem is_online_success_iff_witness :
    is_online (.exited (pingExitCode [false, true])) = [false, true].any id ∧
    is_online (.exited 1) = false ∧
    is_online .error = false :=
  is_online_success_iff [false, true] 1 (by decide)

/-- C5 counterexample: with one device online and a failing append, a status
change makes exactly one write attempt, lets the exception escape, and leaves
the in-memory state at the NEW status — not at the last-known (previous)
status as the claim requires, and with no retry. -/
theorem setStatus_write_failure_counterexample :
    (update_device_status_fallible exT1 220 exMac sOffline false).2.1 = 1 ∧
    (update_device_status_fallible exT1 220 exMac sOffline false).2.2 = true ∧
    (alookup exMac
        (update_device_status_fallible exT1 220 exMac sOffline false).1.deviceStates).map
      DevState.status = some sOffline ∧
    sOffline ≠ sOnline ∧
    (alookup exMac exT1.deviceStates).map DevState.status = some sOnline := by
  decide

/-- C5 amended: `update_device_status` makes exactly one write attempt with no
retry or backoff; on append failure the exception propagates to the caller,
the history entry is not persisted, and the in-memory state has already been
set to the new status; on success it coincides with the plain update. -/
theorem setStatus_single_write_attempt (t : Tracker) (now : Nat) (mac s : Str)
    (st : DevState) (h : alookup mac t.deviceStates = some st) (hne : st.status ≠ s) :
    (∀ w, (update_device_status_fallible t now mac s w).2.1 = 1) ∧
    (∀ w, (update_device_status_fallible t now mac s w).2.2 = !w) ∧
    (update_device_status_fallible t now mac s false).1.files = t.files ∧
    alookup mac (update_device_status_fallible t now mac s false).1.deviceStates =
      some { st with status := s, lastChange := now } ∧
    (update_device_status_fallible t now mac s true).1 =
      update_device_status t now mac s := by
  have hred : ∀ w, update_device_status_fallible t now mac s w =
      ({ deviceStates :=
           aset mac { st with status := s, lastChange := now } t.deviceStates,
         files :=
           if w then
             fappend (get_filename st.hostname)
               ⟨now, st.ip, mac, s, (now : Int) - (st.lastChange : Int)⟩ t.files
           else t.files },
       1, !w) := by
    intro w
    unfold update_device_status_fallible
    simp only [h]
    rw [if_pos hne]
  refine ⟨fun w => by rw [hred w], fun w => by rw [hred w],
    by rw [hred false]; rfl, ?_, ?_⟩
  · rw [hred false]
    exact alookup_aset_self mac _ t.deviceStates
  · rw [hred true]
    unfold update_device_status
    simp only [h]
    rw [if_pos hne]
    simp

theorem setStatus_single_write_attempt_witness :
    (update_device_status_fallible exT1 220 exMac sOffline false).2.1 = 1 ∧
    (update_device_status_fallible exT1 220 exMac sOffline false).1.files = exT1.files ∧
    alookup exMac (update_device_status_fallible exT1 220 exMac sOffline false).1.deviceStates
      = some ⟨exHost, exIp, sOffline, 220⟩ := by
  have h := setStatus_single_write_attempt exT1 220 exMac sOffline
    ⟨exHost, exIp, sOnline, 100⟩ (by decide) (by decide)
  exact ⟨h.1 false, h.2.2.1, h.2.2.2.1⟩

/-- C7 counterexample: the vendor cache is keyed by the full hardware address,
not by its vendor prefix — after resolving one address, a second address with
the same OUI prefix still triggers an external lookup. -/
theorem get_vendor_prefix_cache_counterexample :
    exMac ≠ exMacD ∧ ouiOf exMac = ouiOf exMacD ∧
    (get_vendor (get_vendor ⟨[], []⟩ webEspressif exMac).2.1 webEspressif exMacD).2.2 =
      true := by
  decide

/-- C7 amended: vendor results are cached per full hardware address: a repeated
call with the same address is served from the cache without an external lookup,
while any address not in the cache — even one sharing the vendor prefix —
performs an external lookup and is then cached under its own full address. -/
theorem get_vendor_cache_full_mac (lk : MacVendorLookup) (web : Str → Option Str)
    (mac mac' v : Str) (h : alookup mac lk.cache = some v)
    (h' : alookup mac' lk.cache = none) :
    get_vendor lk web mac = (v, lk, false) ∧
    (get_vendor lk web mac').2.2 = true ∧
    alookup mac' (get_vendor lk web mac').2.1.cache =
      some (get_vendor lk web mac').1 := by
  refine ⟨?_, ?_, ?_⟩
  · unfold get_vendor
    simp only [h]
  · unfold get_vendor
    simp only [h']
    cases web (ouiOf mac') <;> simp
  · unfold get_vendor
    simp only [h']
    cases web (ouiOf mac') <;> simp [alookup_aset_self]

theorem get_vendor_cache_full_mac_witness :
    get_vendor (get_vendor ⟨[], []⟩ webEspressif exMac).2.1 webEspressif exMac =
      ("Espressif Inc.".toList, (get_vendor ⟨[], []⟩ webEspressif exMac).2.1, false) ∧
    (get_vendor (get_vendor ⟨[], []⟩ webEspressif exMac).2.1 webEspressif exMacD).2.2 =
      true := by
  have h := get_vendor_cache_full_mac (get_vendor ⟨[], []⟩ webEspressif exMac).2.1
    webEspressif exMac exMacD "Espressif Inc.".toList (by decide) (by decide)
  exact ⟨h.1, h.2.1⟩

/-- C10: a usable DNS name short-circuits `generate_hostname` to its sanitized
form without consulting or updating the duplicate-label counters, so repeated
calls with the same DNS name — even for distinct hardware addresses — return
identical labels. -/
theorem generate_hostname_dns_bypass (lk : MacVendorLookup) (web : Str → Option Str)
    (mac ip mac' ip' d : Str) (h1 : d ≠ []) (h2 : d ≠ ip) (h3 : d ≠ ip') :
    generate_hostname lk web mac ip (some d) = (cleanDns d, lk) ∧
    (generate_hostname lk web mac ip (some d)).1 =
      (generate_hostname lk web mac' ip' (some d)).1 ∧
    (generate_hostname lk web mac ip (some d)).2.hostname_counts =
      lk.hostname_counts := by
  have e1 : generate_hostname lk web mac ip (some d) = (cleanDns d, lk) := by
    show (if d ≠ [] ∧ d ≠ ip then (cleanDns d, lk) else gen_vendor_hostname lk web mac) =
      (cleanDns d, lk)
    rw [if_pos ⟨h1, h2⟩]
  have e2 : generate_hostname lk web mac' ip' (some d) = (cleanDns d, lk) := by
    show (if d ≠ [] ∧ d ≠ ip' then (cleanDns d, lk) else gen_vendor_hostname lk web mac') =
      (cleanDns d, lk)
    rw [if_pos ⟨h1, h3⟩]
  exact ⟨e1, by rw [e1, e2], by rw [e1]⟩

theorem generate_hostname_dns_bypass_witness :
    generate_hostname ⟨[], []⟩ webEspressif exMac exIp (some "my host.local".toList) =
      ("my-host-local".toList, (⟨[], []⟩ : MacVendorLookup)) ∧
    (generate_hostname ⟨[], []⟩ webEspressif exMac exIp (some "my host.local".toList)).1 =
      (generate_hostname ⟨[], []⟩ webEspressif exMacD "10.0.0.7".toList
        (some "my host.local".toList)).1 := by
  have h := generate_hostname_dns_bypass ⟨[], []⟩ webEspressif exMac exIp exMacD
    "10.0.0.7".toList "my host.local".toList (by decide) (by decide) (by decide)
  refine ⟨?_, h.2.1⟩
  rw [h.1]
  decide

/-- C4: the effective device configuration is the patch of the first pattern in
declaration order whose pattern matches the label (no merging of later
matches); with patterns `["Espressif.*", ".*"]` in order, label
`"EspressifInc-4DE4"` resolves via the first pattern (although the second also
matches) and `"GoogleInc-1234"` via the second (the first does not match it). -/
theorem device_config_first_match_wins :
    (∀ (α : Type) (pre post : List (List RTok × α)) (pat : List RTok)
      (patch empty : α) (label : Str),
      (∀ q ∈ pre, reMatchFrom q.1 label = false) → reMatchFrom pat label = true →
      get_device_config (pre ++ (pat, patch) :: post) empty label = patch) ∧
    get_device_config [(reEspressif, (1 : Nat)), (reAnything, 2)] 0
      "EspressifInc-4DE4".toList = 1 ∧
    reMatchFrom reAnything "EspressifInc-4DE4".toList = true ∧
    get_device_config [(reEspressif, (1 : Nat)), (reAnything, 2)] 0
      "GoogleInc-1234".toList = 2 ∧
    reMatchFrom reEspressif "GoogleInc-1234".toList = false := by
  refine ⟨?_, by decide, by decide, by decide, by decide⟩
  intro α pre post pat patch empty label hpre hpat
  have hfind : ∀ l : List (List RTok × α), (∀ q ∈ l, reMatchFrom q.1 label = false) →
      List.find? (fun pr => reMatchFrom pr.1 label) (l ++ (pat, patch) :: post) =
        some (pat, patch) := by
    intro l
    induction l with
    | nil =>
      intro _
      exact List.find?_cons_of_pos _ hpat
    | cons q l' ih =>
      intro hl
      rw [List.cons_append,
        List.find?_cons_of_neg _ (by simpa using hl q (List.mem_cons_self q l'))]
      exact ih (fun x hx => hl x (List.mem_cons_of_mem q hx))
  unfold get_device_config
  rw [hfind pre hpre]

theorem device_config_first_match_wins_witness :
    get_device_config [(reEspressif, (5 : Nat)), (reAnything, 10)] 0
      "GoogleInc-1234".toList = 10 :=
  device_config_first_match_wins.1 Nat [(reEspressif, 5)] [] reAnything 10 0
    "GoogleInc-1234".toList (by decide) (by decide)

theorem suffix_ne_base (base : Str) (k : Nat) : base ++ '-' :: fmtNat k ≠ base := by
  intro h
  have hl := congrArg List.length h
  rw [List.length_append, List.length_cons] at hl
  omega

theorem suffix_inj (base : Str) (m n : Nat)
    (h : base ++ '-' :: fmtNat m = base ++ '-' :: fmtNat n) : m = n := by
  have h2 := List.append_cancel_left h
  injection h2 with h3 h4
  exact fmtNat_injective h4

theorem assign_fold_replicate (base : Str) : ∀ (k : Nat) (counts : List (Str × Nat))
    (n : Nat), alookup base counts = some n →
    (assign_fold counts (List.replicate k base)).1 =
      (List.range k).map (fun i => base ++ '-' :: fmtNat (n + i + 1)) ∧
    alookup base (assign_fold counts (List.replicate k base)).2 = some (n + k) := by
  intro k
  induction k with
  | zero =>
    intro counts n h
    exact ⟨rfl, by simpa using h⟩
  | succ k ihk =>
    intro counts n h
    have hstep : assign_hostname counts base =
        (base ++ '-' :: fmtNat (n + 1), aset base (n + 1) counts) := by
      unfold assign_hostname
      simp only [h]
    have hnext : alookup base (aset base (n + 1) counts) = some (n + 1) :=
      alookup_aset_self base (n + 1) counts
    obtain ⟨ih1, ih2⟩ := ihk (aset base (n + 1) counts) (n + 1) hnext
    constructor
    · simp only [List.replicate_succ, assign_fold, hstep]
      rw [ih1, List.range_succ_eq_map, List.map_cons, List.map_map]
      refine congrArg₂ List.cons rfl ?_
      apply List.map_congr_left
      intro i _
      show base ++ '-' :: fmtNat (n + 1 + i + 1) = base ++ '-' :: fmtNat (n + (i + 1) + 1)
      rw [show n + 1 + i + 1 = n + (i + 1) + 1 by omega]
    · simp only [List.replicate_succ, assign_fold, hstep]
      rw [show n + (k + 1) = n + 1 + k by omega]
      exact ih2

/-- C8: label collisions on a base name are resolved by an incrementing,
never-reused numeric suffix: the first call for a base returns the base, each
later colliding call returns base-(n+1) while the counter increases strictly,
all issued labels for a base are pairwise distinct, and concretely two distinct
hardware addresses deriving the same base receive the base and base-2. -/
theorem generate_hostname_collision_suffixes :
    (∀ counts base, alookup base counts = none →
      assign_hostname counts base = (base, aset base 1 counts)) ∧
    (∀ counts base n, alookup base counts = some n →
      assign_hostname counts base =
        (base ++ '-' :: fmtNat (n + 1), aset base (n + 1) counts)) ∧
    (∀ base k, base ++ '-' :: fmtNat k ≠ base) ∧
    (∀ base m n, m ≠ n → base ++ '-' :: fmtNat m ≠ base ++ '-' :: fmtNat n) ∧
    (∀ counts base n, alookup base counts = none →
      (assign_fold counts (List.replicate (n + 1) base)).1 =
        base :: (List.range n).map (fun i => base ++ '-' :: fmtNat (i + 2)) ∧
      (assign_fold counts (List.replicate (n + 1) base)).1.Nodup ∧
      alookup base (assign_fold counts (List.replicate (n + 1) base)).2 =
        some (n + 1)) ∧
    ((generate_hostname ⟨[], []⟩ webEspressif exMac exIp none).1 =
        "EspressifInc-2233".toList ∧
      (generate_hostname (generate_hostname ⟨[], []⟩ webEspressif exMac exIp none).2
          webEspressif exMacB exIp none).1 = "EspressifInc-2233-2".toList ∧
      exMac ≠ exMacB) := by
  have hfreshStep : ∀ counts base, alookup base counts = none →
      assign_hostname counts base = (base, aset base 1 counts) := by
    intro counts base h
    unfold assign_hostname
    simp only [h]
  have hseenStep : ∀ counts base n, alookup base counts = some n →
      assign_hostname counts base =
        (base ++ '-' :: fmtNat (n + 1), aset base (n + 1) counts) := by
    intro counts base n h
    unfold assign_hostname
    simp only [h]
  refine ⟨hfreshStep, hseenStep, suffix_ne_base,
    fun base m n hmn h => hmn (suffix_inj base m n h), ?_, by decide⟩
  intro counts base n h
  have h1 : alookup base (aset base 1 counts) = some 1 :=
    alookup_aset_self base 1 counts
  obtain ⟨f1, f2⟩ := assign_fold_replicate base n (aset base 1 counts) 1 h1
  have heq : (assign_fold counts (List.replicate (n + 1) base)).1 =
      base :: (List.range n).map (fun i => base ++ '-' :: fmtNat (i + 2)) := by
    simp only [List.replicate_succ, assign_fold, hfreshStep counts base h]
    rw [f1]
    congr 1
    apply List.map_congr_left
    intro i _
    rw [show 1 + i + 1 = i + 2 by omega]
  refine ⟨heq, ?_, ?_⟩
  · rw [heq]
    refine List.nodup_cons.mpr ⟨?_, ?_⟩
    · intro hmem
      obtain ⟨i, -, hi⟩ := List.mem_map.mp hmem
      exact suffix_ne_base base (i + 2) hi
    · refine List.Nodup.map ?_ (List.nodup_range n)
      intro i j hij
      have := suffix_inj base (i + 2) (j + 2) hij
      omega
  · simp only [List.replicate_succ, assign_fold, hfreshStep counts base h]
    rw [show n + 1 = 1 + n by omega]
    exact f2

theorem generate_hostname_collision_suffixes_witness :
    (assign_fold [] (List.replicate 3 "EspressifInc-2233".toList)).1.Nodup ∧
    alookup "EspressifInc-2233".toList
      (assign_fold [] (List.replicate 3 "EspressifInc-2233".toList)).2 = some 3 := by
  obtain ⟨-, -, -, -, h5, -⟩ := generate_hostname_collision_suffixes
  have h6 := h5 [] "EspressifInc-2233".toList 2 rfl
  exact ⟨h6.2.1, h6.2.2⟩

theorem loadStep_some (acc : List (Str × DevState)) (F : Str) (es : List HistEntry)
    (mac : Str) (st : DevState) (h : load_one F es = some (mac, st)) :
    loadStep acc (F, es) = aset mac st acc := by
  unfold loadStep
  simp only [h]

/-- C2: after registering a fresh device (whose sanitized filename is unused)
and any finite sequence of `setStatus` calls, the last line of its history file
is the serialization of the last history entry, that entry's status is the
device's current status, and rehydration via `_load_device_states` recovers
the same network address, status, and last-change timestamp as the in-memory
state. -/
theorem register_setStatus_persist_roundtrip
    (t0 : Tracker) (r : Nat) (mac ip hostname : Str) (calls : List (Nat × Str))
    (hmac : alookup mac t0.deviceStates = none)
    (hF : alookup (get_filename hostname) t0.files = none)
    (hmNoC : ',' ∉ mac) (hiNoC : ',' ∉ ip)
    (hcNoC : ∀ c ∈ calls, ',' ∉ c.2) :
    (alookup (get_filename hostname) (runDevice t0 r mac ip hostname calls).files).bind
        (fun es => (fileLines es).getLast?) =
      ((alookup (get_filename hostname)
          (runDevice t0 r mac ip hostname calls).files).bind List.getLast?).map serLine ∧
    ((alookup (get_filename hostname)
        (runDevice t0 r mac ip hostname calls).files).bind List.getLast?).map
        HistEntry.status =
      (alookup mac (runDevice t0 r mac ip hostname calls).deviceStates).map
        DevState.status ∧
    (alookup mac
        (load_device_states (runDevice t0 r mac ip hostname calls).files)).map
        (fun d => (d.ip, d.status, d.lastChange)) =
      (alookup mac (runDevice t0 r mac ip hostname calls).deviceStates).map
        (fun d => (d.ip, d.status, d.lastChange)) := by
  obtain ⟨st', es', hinv, -, hstat, -⟩ :=
    DevInv_fold t0 mac ip hostname hmac hF calls _ _ _
      (DevInv_register t0 r mac ip hostname hmac hF)
  obtain ⟨hds, hfs, hhost, hip, hlast, hchain, hhead⟩ :
      _ ∧ _ ∧ _ ∧ _ ∧ _ ∧ _ ∧ _ := hinv
  have hT : runDevice t0 r mac ip hostname calls =
      calls.foldl (fun tt c => update_device_status tt c.1 mac c.2)
        (add_or_update_device t0 r mac ip hostname) := rfl
  have hlookES : alookup (get_filename hostname)
      (runDevice t0 r mac ip hostname calls).files = some es' := by
    rw [hT, hfs]
    exact alookup_snoc _ es' t0.files hF
  have hlookST : alookup mac (runDevice t0 r mac ip hostname calls).deviceStates =
      some st' := by
    rw [hT, hds]
    exact alookup_snoc _ st' t0.deviceStates hmac
  obtain ⟨eL, heL, heq⟩ := Option.map_eq_some'.mp hlast
  have hts : eL.ts = st'.lastChange := congrArg Prod.fst heq
  have hipL : eL.ip = ip := congrArg (fun p => p.2.1) heq
  have hmacL : eL.mac = mac := congrArg (fun p => p.2.2.1) heq
  have hstL : eL.status = st'.status := congrArg (fun p => p.2.2.2) heq
  have hstNoC : ',' ∉ st'.status := by
    rcases hstat with hsa | ⟨cc, hcc, hcs⟩
    · rw [hsa]
      show ',' ∉ sOnline
      decide
    · rw [hcs]
      exact hcNoC cc hcc
  refine ⟨?_, ?_, ?_⟩
  · rw [hlookES]
    show (fileLines es').getLast? = (es'.getLast?).map serLine
    exact getLast?_map serLine es'
  · rw [hlookES, hlookST]
    show (es'.getLast?).map HistEntry.status = some st'.status
    rw [heL]
    simp only [Option.map_some']
    exact congrArg some hstL
  · rw [hlookST]
    have hfiles : (runDevice t0 r mac ip hostname calls).files =
        t0.files ++ [(get_filename hostname, es')] := by
      rw [hT]
      exact hfs
    rw [hfiles, load_snoc,
      loadStep_some (t0.files.foldl loadStep []) (get_filename hostname) es' eL.mac
        ⟨get_filename hostname, eL.ip, eL.status, eL.ts⟩
        (load_one_some (get_filename hostname) es' eL heL
          (by rw [hipL]; exact hiNoC) (by rw [hmacL]; exact hmNoC)
          (by rw [hstL]; exact hstNoC)),
      hmacL, alookup_aset_self mac _ (t0.files.foldl loadStep [])]
    simp only [Option.map_some']
    rw [hipL, hstL, hts, hip]

theorem register_setStatus_persist_roundtrip_witness :
    (alookup exMac
        (load_device_states (runDevice ⟨[], []⟩ 100 exMac exIp exHost exCalls).files)).map
        (fun d => (d.ip, d.status, d.lastChange)) =
      (alookup exMac (runDevice ⟨[], []⟩ 100 exMac exIp exHost exCalls).deviceStates).map
        (fun d => (d.ip, d.status, d.lastChange)) :=
  (register_setStatus_persist_roundtrip ⟨[], []⟩ 100 exMac exIp exHost exCalls rfl rfl
    (by decide) (by decide) (by decide)).2.2

/-- C3: for a device registered fresh and updated by any sequence of
`setStatus` calls, its history satisfies: the initial entry has duration 0,
every entry's duration equals its timestamp minus the previous entry's
timestamp, durations are all nonnegative under a non-decreasing clock, entries
are strictly time-ordered under a strictly increasing clock, and the durations
sum to the span between the first and last entry. -/
theorem history_duration_accounting
    (t0 : Tracker) (r : Nat) (mac ip hostname : Str) (calls : List (Nat × Str))
    (hmac : alookup mac t0.deviceStates = none)
    (hF : alookup (get_filename hostname) t0.files = none)
    (es : List HistEntry)
    (hes : alookup (get_filename hostname)
      (runDevice t0 r mac ip hostname calls).files = some es) :
    durChain es ∧
    (es.head?).map HistEntry.dur = some 0 ∧
    (List.Chain' (fun a b => a ≤ b) (r :: calls.map Prod.fst) →
      ∀ e ∈ es, 0 ≤ e.dur) ∧
    (List.Chain' (fun a b => a < b) (r :: calls.map Prod.fst) →
      List.Chain' (fun a b => a < b) (es.map HistEntry.ts)) ∧
    (∀ a b, es.head? = some a → es.getLast? = some b →
      (es.map HistEntry.dur).sum = (b.ts : Int) - (a.ts : Int)) := by
  obtain ⟨st', es', hinv, -, -, hchainImp⟩ :=
    DevInv_fold t0 mac ip hostname hmac hF calls _ _ _
      (DevInv_register t0 r mac ip hostname hmac hF)
  obtain ⟨hds, hfs, hhost, hip, hlast, hchain, hhead⟩ :
      _ ∧ _ ∧ _ ∧ _ ∧ _ ∧ _ ∧ _ := hinv
  have hT : runDevice t0 r mac ip hostname calls =
      calls.foldl (fun tt c => update_device_status tt c.1 mac c.2)
        (add_or_update_device t0 r mac ip hostname) := rfl
  have hlookES : alookup (get_filename hostname)
      (runDevice t0 r mac ip hostname calls).files = some es' := by
    rw [hT, hfs]
    exact alookup_snoc _ es' t0.files hF
  have hesq : es = es' := Option.some_inj.mp (hes.symm.trans hlookES)
  subst hesq
  have hchainBase : ∀ R : Nat → Nat → Prop, Transitive R →
      List.Chain' R (r :: calls.map Prod.fst) →
      List.Chain' R (es.map HistEntry.ts) := by
    intro R hR hcalls
    apply hchainImp R hR
    · simp
    · exact hcalls
  refine ⟨hchain, hhead, ?_, ?_, ?_⟩
  · intro hle e he
    have hts' : List.Chain' (fun a b => a ≤ b) (es.map HistEntry.ts) :=
      hchainBase _ (fun _ _ _ hab hbc => le_trans hab hbc) hle
    cases hE : es with
    | nil =>
      rw [hE] at he
      simp at he
    | cons x tl =>
      rw [hE] at he hhead hchain hts'
      have hx0 : x.dur = 0 := by simpa using hhead
      rcases List.mem_cons.mp he with he2 | he2
      · rw [he2, hx0]
      · exact durChain_tail_nonneg (x :: tl) hchain hts' e (by simpa using he2)
  · intro hlt
    exact hchainBase _ (fun _ _ _ hab hbc => lt_trans hab hbc) hlt
  · intro a b ha hb
    cases hE : es with
    | nil =>
      rw [hE] at ha
      simp at ha
    | cons x tl =>
      rw [hE] at ha hb hchain hhead
      have hxa : x = a := by simpa using ha
      subst hxa
      have hsum := durChain_sum tl x hchain b hb
      have ha0 : x.dur = 0 := by simpa using hhead
      omega

theorem history_duration_accounting_witness :
    durChain exEs ∧ (exEs.head?).map HistEntry.dur = some 0 ∧
    List.Chain' (fun a b => a < b) (exEs.map HistEntry.ts) ∧
    (exEs.map HistEntry.dur).sum = ((340 : Nat) : Int) - ((100 : Nat) : Int) := by
  have h := history_duration_accounting ⟨[], []⟩ 100 exMac exIp exHost exCalls rfl rfl
    exEs (by decide)
  exact ⟨h.1, h.2.1, h.2.2.2.1 (by simp [exCalls, List.chain'_cons]),
    h.2.2.2.2 ⟨100, exIp, exMac, sOnline, 0⟩ ⟨340, exIp, exMac, sOnline, 120⟩
      (by decide) (by decide)⟩

end NetMon
